import Mathlib

/-!
Verification of the interleaved randomized benchmarking (IRB) pipeline of
`supermarq/qcvv/irb.py` (with the sibling `cirq_superstaq/qcvv/irb.py`
variant), shallowly embedded in Lean 4.

The embedding models:
* `cirq.ops.SingleQubitCliffordGate` as its Clifford tableau: the images of
  the Pauli operators X and Z under conjugation, each a signed Pauli letter.
  Two cirq gates are equal exactly when their tableaus agree, so equality of
  tableaus is the faithful notion of gate equality.  `merged_with` is tableau
  composition and `cirq.inverse` of a single gate is the group inverse.
* circuits as lists of Clifford gates (every operation acts on the single
  qubit of the experiment, so one operation per moment and the moment list
  is the gate list);
* the pandas/numpy row pipeline of `analyze_results` over exact rationals,
  with an explicit value type recording NaN / -inf behaviour of `np.log`;
* `scipy.stats.linregress` abstractly, keeping only the structure the
  claims depend on (empty input raises, a single point yields NaN).
-/

/-- Pauli letter X, Y or Z. -/
inductive Pauli where
  | X : Pauli
  | Y : Pauli
  | Z : Pauli
deriving DecidableEq, Fintype, Repr

/-- A signed Pauli: the Bool is the sign, `true` meaning a minus sign. -/
abbrev SignedPauli := Bool × Pauli

/-- Clifford tableau of a single-qubit Clifford gate: the signed Pauli images
of X and Z under conjugation by the gate.  This is exactly the data that
determines (and decides equality of) a `cirq.ops.SingleQubitCliffordGate`. -/
structure Tableau where
  xS : Bool
  xP : Pauli
  zS : Bool
  zP : Pauli
deriving DecidableEq, Fintype, Repr

/-- Whether the ordered pair of Pauli letters is cyclic (XY, YZ or ZX), i.e.
their product carries a `+i` phase. -/
def Pauli.cyc : Pauli → Pauli → Bool
  | .X, .Y => true
  | .Y, .Z => true
  | .Z, .X => true
  | _, _ => false

/-- The Pauli letter distinct from both arguments (meaningful when the two
arguments differ). -/
def Pauli.third : Pauli → Pauli → Pauli
  | .X, .Y => .Z
  | .Y, .X => .Z
  | .Y, .Z => .X
  | .Z, .Y => .X
  | .Z, .X => .Y
  | .X, .Z => .Y
  | p, _ => p

/-- Sign of the image of Y under a tableau, derived from the X and Z images
via Y = iXZ: the image is i·(image of X)·(image of Z). -/
def Tableau.yS (t : Tableau) : Bool :=
  xor (xor t.xS t.zS) (Pauli.cyc t.xP t.zP)

/-- Pauli letter of the image of Y under a tableau. -/
def Tableau.yP (t : Tableau) : Pauli :=
  Pauli.third t.xP t.zP

/-- Image of a Pauli letter under the conjugation action of a tableau. -/
def Tableau.apply (t : Tableau) : Pauli → SignedPauli
  | .X => (t.xS, t.xP)
  | .Y => (t.yS, t.yP)
  | .Z => (t.zS, t.zP)

/-- Image of a signed Pauli under the conjugation action of a tableau. -/
def Tableau.applyS (t : Tableau) (sp : SignedPauli) : SignedPauli :=
  let i := t.apply sp.2
  (xor sp.1 i.1, i.2)

/-- Tableau of the composite gate "apply `a`, then apply `b`" — the semantics
of `a.merged_with(b)` in cirq.  The composite sends a Pauli P to the image
under `b` of the image under `a`. -/
def Tableau.comp (a b : Tableau) : Tableau :=
  ⟨(b.applyS (a.xS, a.xP)).1, (b.applyS (a.xS, a.xP)).2,
   (b.applyS (a.zS, a.zP)).1, (b.applyS (a.zS, a.zP)).2⟩

/-- Identity tableau. -/
def Tableau.id : Tableau := ⟨false, .X, false, .Z⟩

/-- A tableau is a valid single-qubit Clifford tableau exactly when the
images of X and Z anticommute, i.e. carry distinct Pauli letters.  There are
24 valid tableaus: the 24 elements of the single-qubit Clifford group. -/
def Tableau.valid (t : Tableau) : Prop := t.xP ≠ t.zP

instance (t : Tableau) : Decidable t.valid := by
  unfold Tableau.valid; infer_instance

/-- Tableau of the inverse gate: if the gate sends the letter K to sign·P,
the inverse sends P to sign·K; the X and Z rows of the inverse are read off
from whichever of the three image letters of the gate equals X resp. Z. -/
def Tableau.inv (t : Tableau) : Tableau :=
  let xRow : SignedPauli :=
    if t.xP = .X then (t.xS, .X)
    else if t.yP = .X then (t.yS, .Y)
    else (t.zS, .Z)
  let zRow : SignedPauli :=
    if t.xP = .Z then (t.xS, .X)
    else if t.yP = .Z then (t.yS, .Y)
    else (t.zS, .Z)
  ⟨xRow.1, xRow.2, zRow.1, zRow.2⟩

/-- The single-qubit Clifford group element: a valid tableau.  This is the
Lean counterpart of `cirq.ops.SingleQubitCliffordGate`. -/
def Cliff : Type := { t : Tableau // t.valid }

instance : DecidableEq Cliff := Subtype.instDecidableEq

instance : Fintype Cliff := Subtype.fintype _

theorem Tableau.comp_valid (a b : Tableau) (ha : a.valid) (hb : b.valid) :
    (a.comp b).valid := by revert ha hb; revert a b; decide

theorem Tableau.id_valid : Tableau.id.valid := by decide

theorem Tableau.inv_valid (t : Tableau) (h : t.valid) : t.inv.valid := by
  revert h; revert t; decide

instance : Mul Cliff := ⟨fun a b => ⟨a.1.comp b.1, Tableau.comp_valid _ _ a.2 b.2⟩⟩

instance : One Cliff := ⟨⟨Tableau.id, Tableau.id_valid⟩⟩

instance : Inv Cliff := ⟨fun a => ⟨a.1.inv, Tableau.inv_valid _ a.2⟩⟩

set_option maxHeartbeats 1000000 in
theorem Tableau.applyS_comp (b c : { t : Tableau // t.valid }) (sp : SignedPauli) :
    (b.1.comp c.1).applyS sp = c.1.applyS (b.1.applyS sp) := by
  obtain ⟨s, p⟩ := sp
  revert s p; revert b c; decide

theorem Tableau.comp_assoc (a : Tableau) (b c : { t : Tableau // t.valid }) :
    (a.comp b.1).comp c.1 = a.comp (b.1.comp c.1) := by
  show Tableau.mk ((c.1.applyS ((b.1.applyS (a.xS, a.xP)).1, (b.1.applyS (a.xS, a.xP)).2)).1)
      ((c.1.applyS ((b.1.applyS (a.xS, a.xP)).1, (b.1.applyS (a.xS, a.xP)).2)).2)
      ((c.1.applyS ((b.1.applyS (a.zS, a.zP)).1, (b.1.applyS (a.zS, a.zP)).2)).1)
      ((c.1.applyS ((b.1.applyS (a.zS, a.zP)).1, (b.1.applyS (a.zS, a.zP)).2)).2)
    = Tableau.mk (((b.1.comp c.1).applyS (a.xS, a.xP)).1)
      (((b.1.comp c.1).applyS (a.xS, a.xP)).2)
      (((b.1.comp c.1).applyS (a.zS, a.zP)).1)
      (((b.1.comp c.1).applyS (a.zS, a.zP)).2)
  rw [Tableau.applyS_comp b c (a.xS, a.xP), Tableau.applyS_comp b c (a.zS, a.zP)]

theorem Cliff.mul_assoc (a b c : Cliff) : a * b * c = a * (b * c) :=
  Subtype.ext (Tableau.comp_assoc a.1 b c)

theorem Cliff.one_mul (a : Cliff) : 1 * a = a := by revert a; decide

theorem Cliff.mul_one (a : Cliff) : a * 1 = a := by revert a; decide

theorem Cliff.inv_mul_cancel (a : Cliff) : a⁻¹ * a = 1 := by revert a; decide

/-- The 24 single-qubit Clifford gates form a group under `merged_with`
composition, with `cirq.inverse` as the group inverse. -/
instance : Group Cliff where
  mul_assoc := Cliff.mul_assoc
  one_mul := Cliff.one_mul
  mul_one := Cliff.mul_one
  inv_mul_cancel := Cliff.inv_mul_cancel

/-! ### Concrete gates

The named `cirq.ops.SingleQubitCliffordGate` constants used by
`IRB._random_single_qubit_clifford`, given by their tableaus. -/

namespace CliffordGate

/-- Identity gate: X ↦ X, Z ↦ Z. -/
def I : Cliff := ⟨⟨false, .X, false, .Z⟩, by decide⟩

/-- Hadamard gate: X ↦ Z, Z ↦ X. -/
def H : Cliff := ⟨⟨false, .Z, false, .X⟩, by decide⟩

/-- Phase gate S (cirq `Z_sqrt`): X ↦ Y, Z ↦ Z. -/
def S : Cliff := ⟨⟨false, .Y, false, .Z⟩, by decide⟩

/-- Pauli X gate: X ↦ X, Z ↦ -Z. -/
def X : Cliff := ⟨⟨false, .X, true, .Z⟩, by decide⟩

/-- Pauli Y gate: X ↦ -X, Z ↦ -Z. -/
def Y : Cliff := ⟨⟨true, .X, true, .Z⟩, by decide⟩

/-- Pauli Z gate: X ↦ -X, Z ↦ Z. -/
def Z : Cliff := ⟨⟨true, .X, false, .Z⟩, by decide⟩

end CliffordGate

/-- Sanity check of the tableau algebra: S composed with S is Z. -/
theorem zsqrt_sq : CliffordGate.S * CliffordGate.S = CliffordGate.Z := by decide

/-- Sanity check: the Hadamard gate is an involution. -/
theorem hadamard_sq : CliffordGate.H * CliffordGate.H = 1 := by decide

namespace IRB

/-- Embeds `IRB._reduce_clifford_seq`: the loop `cur = gate_seq[0]; for gate
in gate_seq[1:]: cur = cur.merged_with(gate)` is a left fold starting at the
first element.  On the empty list the source raises (the `gate_seq[0]`
lookup fails); the `none` result models that failure. -/
def reduceCliffordSeq : List Cliff → Option Cliff
  | [] => none
  | g :: gs => some (gs.foldl (· * ·) g)

/-- The 6-element coset representative list `set_A` of
`IRB._random_single_qubit_clifford`: I, S, H, and the reductions of
[H, S], [S, H] and [H, S, H]. -/
def setA : Fin 6 → Cliff :=
  ![CliffordGate.I, CliffordGate.S, CliffordGate.H,
    CliffordGate.H * CliffordGate.S,
    CliffordGate.S * CliffordGate.H,
    CliffordGate.H * CliffordGate.S * CliffordGate.H]

/-- The 4-element Pauli list `set_B` of `IRB._random_single_qubit_clifford`. -/
def setB : Fin 4 → Cliff :=
  ![CliffordGate.I, CliffordGate.X, CliffordGate.Y, CliffordGate.Z]

/-- Embeds `IRB._random_single_qubit_clifford` with the randomness made
explicit: the two uniform `random.choice` draws are the given pair of
indices, and the result is the reduction of the chosen pair of gates. -/
def randomSingleQubitClifford (ab : Fin 6 × Fin 4) : Cliff :=
  setA ab.1 * setB ab.2

/-- Embeds `IRB._invert_clifford_circuit`.  A circuit is its list of gates
(single-qubit experiment: one operation per moment).  `cirq.inverse` of the
gate list inverts each gate and reverses the order; `_reduce_clifford_seq`
of that list is the closing element, appended to a copy of the circuit.
When the input circuit is empty the inner reduction fails (`none`). -/
def invertCliffordCircuit (circuit : List Cliff) : Option (List Cliff) :=
  match reduceCliffordSeq ((circuit.map (fun g => g⁻¹)).reverse) with
  | none => none
  | some invElement => some (circuit ++ [invElement])

/-- Modelled from the spec: `BenchmarkingExperiment._interleave_op` (the
benchmarking base class is not among the provided sources).  Per the spec,
the interleaved variant inserts the interleaving gate after every element of
the base sequence; the `include_final=True` call site places a copy after
the last element as well. -/
def interleaveOp (gate : Cliff) : List Cliff → List Cliff
  | [] => []
  | g :: gs => g :: gate :: interleaveOp gate gs

end IRB

/-! ### Basic facts about sequence reduction and circuit inversion -/

theorem foldl_mul_eq_prod (g : Cliff) (gs : List Cliff) :
    gs.foldl (· * ·) g = (g :: gs).prod := by
  induction gs generalizing g with
  | nil => simp
  | cons a gs ih => simp [ih, mul_assoc]

/-- Reduction of a non-empty sequence is its left-to-right product. -/
theorem reduceCliffordSeq_cons (g : Cliff) (gs : List Cliff) :
    IRB.reduceCliffordSeq (g :: gs) = some ((g :: gs).prod) := by
  simp [IRB.reduceCliffordSeq, foldl_mul_eq_prod]

theorem reduceCliffordSeq_nil : IRB.reduceCliffordSeq [] = none := rfl

/-- Reduction of the reversed, element-wise inverted sequence is the group
inverse of the product of the sequence. -/
theorem reduceCliffordSeq_invSeq (c : List Cliff) (hc : c ≠ []) :
    IRB.reduceCliffordSeq ((c.map (fun g => g⁻¹)).reverse) = some (c.prod)⁻¹ := by
  obtain ⟨g, gs, rfl⟩ := List.exists_cons_of_ne_nil hc
  have hne : ((g :: gs).map (fun g => g⁻¹)).reverse ≠ [] := by simp
  obtain ⟨a, as, he⟩ := List.exists_cons_of_ne_nil hne
  rw [he, reduceCliffordSeq_cons, ← he, List.prod_inv_reverse]

/-- Closed form of circuit inversion on a non-empty circuit. -/
theorem invertCliffordCircuit_eq (c : List Cliff) (hc : c ≠ []) :
    IRB.invertCliffordCircuit c = some (c ++ [(c.prod)⁻¹]) := by
  unfold IRB.invertCliffordCircuit
  rw [reduceCliffordSeq_invSeq c hc]

theorem invertCliffordCircuit_nil : IRB.invertCliffordCircuit [] = none := rfl

/-- Characterisation of a successful circuit inversion. -/
theorem invertCliffordCircuit_some {c r : List Cliff}
    (h : IRB.invertCliffordCircuit c = some r) :
    c ≠ [] ∧ r = c ++ [(c.prod)⁻¹] := by
  rcases c with - | ⟨g, gs⟩
  · exact absurd h (by simp [invertCliffordCircuit_nil])
  · refine ⟨by simp, ?_⟩
    have := invertCliffordCircuit_eq (g :: gs) (by simp)
    rw [this] at h
    exact (Option.some_injective _ h).symm

/-! ### Circuit building -/

/-- Experiment variant tag recorded in a sample's data: the plain
randomized-benchmarking circuit or the interleaved one. -/
inductive Variant where
  | RB : Variant
  | IRB : Variant
deriving DecidableEq, Repr

/-- Modelled from the spec: the `Sample` record of the benchmarking base
class is not among the provided sources.  Per the spec a sample is one
constructed circuit plus metadata (depth, experiment variant, realized
circuit size).  `circuit` is the list of Clifford operations before the
final full-qubit measurement (the measurement, common to every sample, is
not represented); `circuitDepth` is the recorded `len(circuit)` tag. -/
structure Sample where
  circuit : List Cliff
  numCycles : Nat
  circuitDepth : Nat
  experiment : Variant
deriving DecidableEq

/-- Failure of the (tolerated-by-`Except`) empty-sequence reduction inside
circuit building: `_reduce_clifford_seq` applied to an empty gate list. -/
inductive BuildError where
  | emptyCliffordSeq : BuildError
deriving DecidableEq, Repr

namespace IRB

/-- The `depth` random Clifford draws of one loop iteration, taken from the
explicit random supply starting at index `start`.  Models the list
comprehension over `range(depth)` in `_build_circuits`. -/
def drawSeq (supply : Nat → Cliff) (start depth : Nat) : List Cliff :=
  (List.range depth).map (fun i => supply (start + i))

/-- One pass of the `_build_circuits` loop body per remaining depth, with
`off` the number of random draws consumed so far.  For each depth: build the
random base circuit, append its closing inverse for the RB sample and, when
an interleaving gate is configured, also build the interleaved variant with
its own closing inverse.  A failed inversion (empty base sequence) is the
`IndexError` of `_reduce_clifford_seq`, surfaced as a `BuildError`. -/
def buildLoop (supply : Nat → Cliff) (gate : Option Cliff) :
    List Nat → Nat → Except BuildError (List Sample)
  | [], _ => .ok []
  | d :: rest, off =>
    let base := drawSeq supply off d
    match invertCliffordCircuit base with
    | none => .error .emptyCliffordSeq
    | some rb =>
      match gate with
      | none =>
        match buildLoop supply none rest (off + d) with
        | .error e => .error e
        | .ok s => .ok (⟨rb, d, rb.length, .RB⟩ :: s)
      | some g =>
        match invertCliffordCircuit (interleaveOp g base) with
        | none => .error .emptyCliffordSeq
        | some irb =>
          match buildLoop supply (some g) rest (off + d) with
          | .error e => .error e
          | .ok s => .ok (⟨rb, d, rb.length, .RB⟩ :: ⟨irb, d, irb.length, .IRB⟩ :: s)

/-- Embeds `IRB._build_circuits`.  `tqdm`'s `product(range(num_circuits),
cycle_depths)` iterates trials in the outer position, so the sequence of
depths encountered is `cycle_depths` repeated `num_circuits` times; the
process-wide random source is made explicit as `supply`. -/
def buildCircuits (supply : Nat → Cliff) (numCircuits : Nat)
    (cycleDepths : List Nat) (gate : Option Cliff) :
    Except BuildError (List Sample) :=
  buildLoop supply gate (List.replicate numCircuits cycleDepths).flatten 0

/-- Depth tags of the samples of a given variant, in production order. -/
def variantDepths (samples : List Sample) (v : Variant) : List Nat :=
  (samples.filter (fun s => decide (s.experiment = v))).map Sample.numCycles

end IRB

/-- Characterisation of a successful build pass: when every requested depth
is positive, the loop succeeds, the RB samples carry exactly the requested
depth tags in order, the IRB samples do so exactly when an interleaving gate
is configured, and without a gate every sample is an RB sample. -/
theorem buildLoop_ok (supply : Nat → Cliff) (gate : Option Cliff)
    (ds : List Nat) (off : Nat) (h : ∀ d ∈ ds, d ≠ 0) :
    ∃ samples, IRB.buildLoop supply gate ds off = .ok samples ∧
      IRB.variantDepths samples .RB = ds ∧
      IRB.variantDepths samples .IRB = (match gate with | none => [] | some _ => ds) ∧
      (gate = none → ∀ s ∈ samples, s.experiment = Variant.RB) := by
  induction ds generalizing off with
  | nil =>
    exact ⟨[], by cases gate <;> simp [IRB.buildLoop, IRB.variantDepths]⟩
  | cons d rest ih =>
    have hd : d ≠ 0 := h d (by simp)
    have hrest : ∀ x ∈ rest, x ≠ 0 := fun x hx => h x (by simp [hx])
    have hbase : IRB.drawSeq supply off d ≠ [] := by
      simp [IRB.drawSeq, List.map_eq_nil_iff, List.range_eq_nil, hd]
    obtain ⟨s, hs, hrb, hirb, hall⟩ := ih (off + d) hrest
    obtain ⟨rb, hrbEq⟩ : ∃ rb, IRB.invertCliffordCircuit (IRB.drawSeq supply off d) = some rb :=
      ⟨_, invertCliffordCircuit_eq _ hbase⟩
    cases gate with
    | none =>
      refine ⟨⟨rb, d, rb.length, .RB⟩ :: s, ?_, ?_, ?_, ?_⟩
      · simp only [IRB.buildLoop, hrbEq, hs]
      · simp [IRB.variantDepths] at hrb ⊢; exact hrb
      · simp [IRB.variantDepths] at hirb ⊢; exact hirb
      · intro hg t ht
        rcases List.mem_cons.mp ht with rfl | ht
        · rfl
        · exact hall hg t ht
    | some g =>
      have hintl : IRB.interleaveOp g (IRB.drawSeq supply off d) ≠ [] := by
        obtain ⟨a, as, he⟩ := List.exists_cons_of_ne_nil hbase
        rw [he]; simp [IRB.interleaveOp]
      obtain ⟨irb, hirbEq⟩ :
          ∃ irb, IRB.invertCliffordCircuit (IRB.interleaveOp g (IRB.drawSeq supply off d))
            = some irb :=
        ⟨_, invertCliffordCircuit_eq _ hintl⟩
      refine ⟨⟨rb, d, rb.length, .RB⟩ :: ⟨irb, d, irb.length, .IRB⟩ :: s, ?_, ?_, ?_, ?_⟩
      · simp only [IRB.buildLoop, hrbEq, hirbEq, hs]
      · simp [IRB.variantDepths] at hrb ⊢; exact hrb
      · simp [IRB.variantDepths] at hirb ⊢; exact hirb
      · intro hg; cases hg

/-! ### The `analyze_results` row pipeline

Probabilities are exact rationals.  The value of `np.log` matters to the
claims only through its domain behaviour, so a finite log value is recorded
by its (positive) argument. -/

/-- One row of `raw_data` as assembled by `_process_probabilities`: the
Clifford depth, the ground-state probability (column `"0"`), and the
experiment tag. -/
structure RawRow where
  cliffordDepth : Rat
  p0 : Rat
  experiment : Variant
deriving DecidableEq, Repr

namespace IRB

/-- Embeds the survival-probability column: `2 * raw_data["0"] - 1`. -/
def survivalProb (p : Rat) : Rat := 2 * p - 1

/-- Value of an entry of the log-survival column: NaN (from the log of a
negative number), -inf (log of zero), or a finite value, recorded by the
positive argument of the log. -/
inductive LogVal where
  | nan : LogVal
  | negInf : LogVal
  | val (x : Rat) : LogVal
deriving DecidableEq, Repr

/-- Domain behaviour of `np.log` on an exact input: negative arguments give
NaN (with a runtime warning, not an exception), zero gives -inf, positive
arguments give a finite value. -/
def npLog (x : Rat) : LogVal :=
  if x < 0 then .nan else if x = 0 then .negInf else .val x

/-- Whether a log-column entry is NaN — the condition `dropna` acts on. -/
def LogVal.isNaN : LogVal → Bool
  | .nan => true
  | _ => false

/-- Embeds `self.raw_data.dropna(axis=0)` after the survival and
log-survival columns are added: a row is dropped exactly when one of its
entries is NaN, and with exact numeric inputs the only possibly-NaN entry is
the log-survival column.  Note `-inf` entries are not NaN and are kept. -/
def dropNaRows (raw : List RawRow) : List RawRow :=
  raw.filter (fun r => !(npLog (survivalProb r.p0)).isNaN)

/-- Rows of the given variant that reach the regression: the
`raw_data.query("experiment == ...")` selection applied after `dropna`. -/
def regressionRows (raw : List RawRow) (v : Variant) : List RawRow :=
  (dropNaRows raw).filter (fun r => decide (r.experiment = v))

/-- The (depth, log survival probability) points handed to
`scipy.stats.linregress` for the given variant. -/
def regressionPoints (raw : List RawRow) (v : Variant) : List (Rat × LogVal) :=
  (regressionRows raw v).map (fun r => (r.cliffordDepth, npLog (survivalProb r.p0)))

/-- Outcome of the `linregress` call at the structural level: a raised
`ValueError`, a silent NaN fit, or an actual fit of the given points. -/
inductive LinregressOutcome where
  | valueError : LinregressOutcome
  | nanFit : LinregressOutcome
  | fitted (pts : List (Rat × LogVal)) : LinregressOutcome
deriving DecidableEq, Repr

/-- Models `scipy.stats.linregress` at the structural level the claims
depend on: an empty input raises `ValueError` ("Inputs must not be empty");
a single point makes the slope the indeterminate 0/0, i.e. NaN slope and
NaN standard error, silently (a runtime warning, no exception — the
identical-x guard of scipy only applies to two or more points); two or more
points produce an ordinary least-squares fit, abstracted here by keeping
the points (the degenerate zero-depth-variance case with two or more points
raises in scipy; no claim depends on it and it is not modelled). -/
def linregress (pts : List (Rat × LogVal)) : LinregressOutcome :=
  if pts.length = 0 then .valueError
  else if pts.length = 1 then .nanFit
  else .fitted pts

/-- The regression step of `analyze_results` for one variant: the rows are
filtered and passed to `linregress` unconditionally — the source has no
usable-row-count guard of its own. -/
def analyzeRegression (raw : List RawRow) (v : Variant) : LinregressOutcome :=
  linregress (regressionPoints raw v)

/-! ### The fitted-value arithmetic of `analyze_results`

The slope and its standard error returned by `linregress`, and the
transcendental functions `np.exp` and `np.sqrt` applied to them, are
external numeric collaborators; they are abstracted as the `RegressionModel`
inputs and the function parameters `expF` and `sqrtF`, so that the
derivations stay exact and executable. -/

/-- Slope and standard error of a fitted regression model. -/
structure RegressionModel where
  slope : Rat
  stderr : Rat
deriving DecidableEq, Repr

/-- Embeds the `RBResults` record (the fields derived in
`analyze_results`). -/
structure RBResults where
  rbDecayCoefficient : Rat
  rbDecayCoefficientStd : Rat
  averageGateError : Rat
  averageGateErrorStd : Rat
deriving DecidableEq, Repr

/-- Embeds the `IRBResults` record (the fields derived in
`analyze_results`). -/
structure IRBResults where
  rbDecayCoefficient : Rat
  rbDecayCoefficientStd : Rat
  irbDecayCoefficient : Rat
  irbDecayCoefficientStd : Rat
  averageInterleavedGateError : Rat
  averageInterleavedGateErrorStd : Rat
deriving DecidableEq, Repr

/-- Embeds the `interleaved_gate is None` branch of `analyze_results`
(lines computing `rb_decay_coefficient` through `average_gate_error_std`):
the decay coefficient is `exp` of the fitted slope, its standard deviation
the slope standard error times the coefficient, and the average gate error
`(1 - 2^-num_qubits) * (1 - rb_decay_coefficient)` with standard deviation
scaled by the same prefactor. -/
def analyzeRB (expF : Rat → Rat) (numQubits : Nat) (rbModel : RegressionModel) :
    RBResults :=
  let rbDecayCoefficient := expF rbModel.slope
  let rbDecayCoefficientStd := rbModel.stderr * rbDecayCoefficient
  { rbDecayCoefficient := rbDecayCoefficient
    rbDecayCoefficientStd := rbDecayCoefficientStd
    averageGateError := (1 - (2 : Rat) ^ (-(numQubits : Int))) * (1 - rbDecayCoefficient)
    averageGateErrorStd := (1 - (2 : Rat) ^ (-(numQubits : Int))) * rbDecayCoefficientStd }

/-- Embeds the `else` branch of `analyze_results` (both variants fitted):
decay coefficients and standard deviations for both fits, the interleaved
gate error `(1 - irb/rb) * (1 - 2^-num_qubits)` and its propagated standard
deviation. -/
def analyzeIRB (expF sqrtF : Rat → Rat) (numQubits : Nat)
    (rbModel irbModel : RegressionModel) : IRBResults :=
  let rbDecayCoefficient := expF rbModel.slope
  let rbDecayCoefficientStd := rbModel.stderr * rbDecayCoefficient
  let irbDecayCoefficient := expF irbModel.slope
  let irbDecayCoefficientStd := irbModel.stderr * irbDecayCoefficient
  { rbDecayCoefficient := rbDecayCoefficient
    rbDecayCoefficientStd := rbDecayCoefficientStd
    irbDecayCoefficient := irbDecayCoefficient
    irbDecayCoefficientStd := irbDecayCoefficientStd
    averageInterleavedGateError :=
      (1 - irbDecayCoefficient / rbDecayCoefficient) * (1 - (2 : Rat) ^ (-(numQubits : Int)))
    averageInterleavedGateErrorStd :=
      sqrtF ((irbDecayCoefficientStd / (2 * rbDecayCoefficient)) ^ 2
        + ((irbDecayCoefficient * rbDecayCoefficientStd) / (2 * rbDecayCoefficient ^ 2)) ^ 2) }

end IRB

/-! ### Additional helper lemmas -/

theorem interleaveOp_length (g : Cliff) (c : List Cliff) :
    (IRB.interleaveOp g c).length = 2 * c.length := by
  induction c with
  | nil => rfl
  | cons a as ih => simp [IRB.interleaveOp, ih]; ring

theorem interleaveOp_eq_flatten (g : Cliff) (c : List Cliff) :
    IRB.interleaveOp g c = (c.map (fun x => [x, g])).flatten := by
  induction c with
  | nil => rfl
  | cons a as ih => simp [IRB.interleaveOp, ih]

theorem interleaveOp_ne_nil (g : Cliff) (c : List Cliff) (hc : c ≠ []) :
    IRB.interleaveOp g c ≠ [] := by
  obtain ⟨a, as, rfl⟩ := List.exists_cons_of_ne_nil hc
  simp [IRB.interleaveOp]

theorem mem_flatten_replicate {n : Nat} {l : List Nat} {d : Nat}
    (h : d ∈ (List.replicate n l).flatten) : d ∈ l := by
  rw [List.mem_flatten] at h
  obtain ⟨s, hs, hd⟩ := h
  rwa [List.eq_of_mem_replicate hs] at hd

/-! ### The claims -/

/-- C4: the random Clifford generator composes one element of the 6-element
coset representative list with one element of the 4-element Pauli list; the
24 resulting compositions are pairwise distinct, the Clifford group has
exactly 24 elements, and hence every group element arises from exactly one
(coset, Pauli) index pair — uniform over the group for uniform independent
draws. -/
theorem randomSingleQubitClifford_uniform :
    (∀ c : Cliff, ∃ ab : Fin 6 × Fin 4, IRB.randomSingleQubitClifford ab = c
        ∧ ∀ ab2 : Fin 6 × Fin 4, IRB.randomSingleQubitClifford ab2 = c → ab2 = ab)
      ∧ Fintype.card Cliff = 24 := by
  constructor
  · decide
  · rfl

/-- C9: sequence reduction of a non-empty list of Clifford elements is the
left-to-right fold of the list under group composition (the product merging
the first element with each subsequent element in order); on the empty list
it fails (the precondition error of `gate_seq[0]`). -/
theorem reduceCliffordSeq_spec :
    IRB.reduceCliffordSeq ([] : List Cliff) = none
      ∧ ∀ (g : Cliff) (gs : List Cliff),
        IRB.reduceCliffordSeq (g :: gs) = some ((g :: gs).prod) :=
  ⟨rfl, reduceCliffordSeq_cons⟩

/-- C7: for every non-empty base sequence of length L, the plain-variant
circuit is built, consists of exactly L+1 Clifford operations before the
measurement, its first L operations are the base sequence, its last
operation is the group inverse of the composition of the first L, and the
composition of all L+1 operations is the identity element. -/
theorem invertCliffordCircuit_spec (c : List Cliff) (hc : c ≠ []) :
    ∃ r, IRB.invertCliffordCircuit c = some r
      ∧ r.length = c.length + 1
      ∧ r = c ++ [(c.prod)⁻¹]
      ∧ r.getLast? = some (c.prod)⁻¹
      ∧ r.prod = 1 := by
  refine ⟨c ++ [(c.prod)⁻¹], invertCliffordCircuit_eq c hc, by simp, rfl, by simp, by simp⟩

/-- C7 witness at the concrete one-element base sequence [H]. -/
theorem invertCliffordCircuit_spec_witness :
    ([CliffordGate.H] : List Cliff) ≠ []
      ∧ ∃ r, IRB.invertCliffordCircuit [CliffordGate.H] = some r
        ∧ r.length = [CliffordGate.H].length + 1
        ∧ r = [CliffordGate.H] ++ [(([CliffordGate.H] : List Cliff).prod)⁻¹]
        ∧ r.getLast? = some (([CliffordGate.H] : List Cliff).prod)⁻¹
        ∧ r.prod = 1 :=
  ⟨by simp, invertCliffordCircuit_spec [CliffordGate.H] (by simp)⟩

/-- C10: circuit inversion is pure with respect to its input: whenever it
returns a circuit, that circuit is the unchanged input circuit followed by
exactly one appended operation, the group inverse of the input's
composition.  (In the source the input `cirq.Circuit` is not mutated:
`circuit + op` builds a new circuit; the sibling implementation rebuilds the
operation list from scratch.) -/
theorem invertCliffordCircuit_frame (c r : List Cliff)
    (h : IRB.invertCliffordCircuit c = some r) :
    r = c ++ [(c.prod)⁻¹]
      ∧ r.take c.length = c
      ∧ r.drop c.length = [(c.prod)⁻¹]
      ∧ r.length = c.length + 1 := by
  obtain ⟨-, rfl⟩ := invertCliffordCircuit_some h
  refine ⟨rfl, by simp, by simp, by simp⟩

/-- C10 witness at the concrete one-element circuit [S]. -/
theorem invertCliffordCircuit_frame_witness :
    IRB.invertCliffordCircuit [CliffordGate.S]
        = some ([CliffordGate.S] ++ [(([CliffordGate.S] : List Cliff).prod)⁻¹])
      ∧ ([CliffordGate.S] ++ [(([CliffordGate.S] : List Cliff).prod)⁻¹]
          = [CliffordGate.S] ++ [(([CliffordGate.S] : List Cliff).prod)⁻¹]
        ∧ ([CliffordGate.S] ++ [(([CliffordGate.S] : List Cliff).prod)⁻¹]).take
            ([CliffordGate.S] : List Cliff).length = [CliffordGate.S]
        ∧ ([CliffordGate.S] ++ [(([CliffordGate.S] : List Cliff).prod)⁻¹]).drop
            ([CliffordGate.S] : List Cliff).length
          = [(([CliffordGate.S] : List Cliff).prod)⁻¹]
        ∧ ([CliffordGate.S] ++ [(([CliffordGate.S] : List Cliff).prod)⁻¹]).length
          = ([CliffordGate.S] : List Cliff).length + 1) :=
  ⟨invertCliffordCircuit_eq [CliffordGate.S] (by simp),
    invertCliffordCircuit_frame [CliffordGate.S] _
      (invertCliffordCircuit_eq [CliffordGate.S] (by simp))⟩

/-- C3 counterexample: a requested depth of 0 makes circuit building fail —
the empty base circuit reaches the empty-sequence branch of
`_reduce_clifford_seq` inside `_invert_clifford_circuit`, so building does
not succeed for every sequence of non-negative depths. -/
theorem buildCircuits_depth_zero_fails :
    IRB.buildCircuits (fun _ => CliffordGate.I) 1 [0] none
      = .error .emptyCliffordSeq := rfl

/-- C3 amended: for every number of circuits ≥ 1 and every sequence of
positive depths, circuit building succeeds and produces a sample for each
(trial, depth) pair — the RB depth tags are exactly the requested depths
repeated once per trial, likewise the IRB tags when an interleaving gate is
configured; at depth 0 the empty-sequence branch is reached instead. -/
theorem buildCircuits_positive_depths (supply : Nat → Cliff) (numCircuits : Nat)
    (cycleDepths : List Nat) (gate : Option Cliff)
    (hn : 1 ≤ numCircuits) (hd : ∀ d ∈ cycleDepths, 1 ≤ d) :
    ∃ samples, IRB.buildCircuits supply numCircuits cycleDepths gate = .ok samples
      ∧ IRB.variantDepths samples .RB = (List.replicate numCircuits cycleDepths).flatten
      ∧ (∀ g, gate = some g →
          IRB.variantDepths samples .IRB = (List.replicate numCircuits cycleDepths).flatten)
      ∧ (gate = none → ∀ s ∈ samples, s.experiment = Variant.RB) := by
  have h0 : ∀ d ∈ (List.replicate numCircuits cycleDepths).flatten, d ≠ 0 := fun d hdm =>
    Nat.one_le_iff_ne_zero.mp (hd d (mem_flatten_replicate hdm))
  obtain ⟨samples, hs, hrb, hirb, hall⟩ := buildLoop_ok supply gate _ 0 h0
  refine ⟨samples, hs, hrb, ?_, hall⟩
  intro g hg
  subst hg
  exact hirb

/-- C3 witness: a concrete build with one trial at depth 1 and an
interleaving gate. -/
theorem buildCircuits_positive_depths_witness :
    1 ≤ 1 ∧ (∀ d ∈ [1], 1 ≤ d)
      ∧ ∃ samples,
          IRB.buildCircuits (fun _ => CliffordGate.I) 1 [1] (some CliffordGate.Z)
            = .ok samples
          ∧ IRB.variantDepths samples .RB = (List.replicate 1 [1]).flatten
          ∧ (∀ g, some CliffordGate.Z = some g →
              IRB.variantDepths samples .IRB = (List.replicate 1 [1]).flatten)
          ∧ (some CliffordGate.Z = none → ∀ s ∈ samples, s.experiment = Variant.RB) :=
  ⟨le_refl 1, by intro d hdm; rw [List.mem_singleton] at hdm; omega,
    buildCircuits_positive_depths _ 1 [1] _ (le_refl 1)
      (by intro d hdm; rw [List.mem_singleton] at hdm; omega)⟩

/-- C6: with no interleaving gate configured the builder produces only RB
samples (one per trial and positive depth), and the RB analysis reports an
average gate error of `(1 - 2^-n) * (1 - decay coefficient)` with standard
deviation `(1 - 2^-n)` times the decay coefficient's standard deviation. -/
theorem rbOnly_spec (supply : Nat → Cliff) (numCircuits : Nat)
    (cycleDepths : List Nat) (hd : ∀ d ∈ cycleDepths, 1 ≤ d)
    (expF : Rat → Rat) (numQubits : Nat) (rbModel : IRB.RegressionModel) :
    (∃ samples, IRB.buildCircuits supply numCircuits cycleDepths none = .ok samples
      ∧ (∀ s ∈ samples, s.experiment = Variant.RB)
      ∧ IRB.variantDepths samples .RB = (List.replicate numCircuits cycleDepths).flatten)
    ∧ (IRB.analyzeRB expF numQubits rbModel).averageGateError
        = (1 - (2 : Rat) ^ (-(numQubits : Int)))
          * (1 - (IRB.analyzeRB expF numQubits rbModel).rbDecayCoefficient)
    ∧ (IRB.analyzeRB expF numQubits rbModel).averageGateErrorStd
        = (1 - (2 : Rat) ^ (-(numQubits : Int)))
          * (IRB.analyzeRB expF numQubits rbModel).rbDecayCoefficientStd := by
  have h0 : ∀ d ∈ (List.replicate numCircuits cycleDepths).flatten, d ≠ 0 := fun d hdm =>
    Nat.one_le_iff_ne_zero.mp (hd d (mem_flatten_replicate hdm))
  obtain ⟨samples, hs, hrb, -, hall⟩ := buildLoop_ok supply none _ 0 h0
  exact ⟨⟨samples, hs, hall rfl, hrb⟩, rfl, rfl⟩

/-- C6 witness: one trial at depth 1 without a gate, and concrete fit data. -/
theorem rbOnly_spec_witness :
    (∀ d ∈ [1], 1 ≤ d)
      ∧ ((∃ samples,
            IRB.buildCircuits (fun _ => CliffordGate.I) 1 [1] none = .ok samples
            ∧ (∀ s ∈ samples, s.experiment = Variant.RB)
            ∧ IRB.variantDepths samples .RB = (List.replicate 1 [1]).flatten)
        ∧ (IRB.analyzeRB (fun x => x) 1 ⟨1, 1⟩).averageGateError
            = (1 - (2 : Rat) ^ (-(1 : Nat) : Int))
              * (1 - (IRB.analyzeRB (fun x => x) 1 ⟨1, 1⟩).rbDecayCoefficient)
        ∧ (IRB.analyzeRB (fun x => x) 1 ⟨1, 1⟩).averageGateErrorStd
            = (1 - (2 : Rat) ^ (-(1 : Nat) : Int))
              * (IRB.analyzeRB (fun x => x) 1 ⟨1, 1⟩).rbDecayCoefficientStd) :=
  ⟨by intro d hdm; rw [List.mem_singleton] at hdm; omega,
    rbOnly_spec _ 1 [1] (by intro d hdm; rw [List.mem_singleton] at hdm; omega)
      (fun x => x) 1 ⟨1, 1⟩⟩

/-- C8: for every non-empty base sequence of length L and configured
interleaving gate, the interleaved-variant circuit is built and consists of
exactly 2L+1 operations before the measurement: the base elements with one
copy of the gate inserted after each, followed by one closing inverse of the
composition of those 2L operations. -/
theorem interleavedCircuit_spec (c : List Cliff) (g : Cliff) (hc : c ≠ []) :
    ∃ r, IRB.invertCliffordCircuit (IRB.interleaveOp g c) = some r
      ∧ r.length = 2 * c.length + 1
      ∧ IRB.interleaveOp g c = (c.map (fun x => [x, g])).flatten
      ∧ r = IRB.interleaveOp g c ++ [((IRB.interleaveOp g c).prod)⁻¹] := by
  have hne := interleaveOp_ne_nil g c hc
  refine ⟨_, invertCliffordCircuit_eq _ hne, ?_, interleaveOp_eq_flatten g c, rfl⟩
  simp [interleaveOp_length]

/-- C8 witness at the concrete base sequence [H] with gate Z. -/
theorem interleavedCircuit_spec_witness :
    ([CliffordGate.H] : List Cliff) ≠ []
      ∧ ∃ r, IRB.invertCliffordCircuit (IRB.interleaveOp CliffordGate.Z [CliffordGate.H])
          = some r
        ∧ r.length = 2 * ([CliffordGate.H] : List Cliff).length + 1
        ∧ IRB.interleaveOp CliffordGate.Z [CliffordGate.H]
          = (([CliffordGate.H] : List Cliff).map (fun x => [x, CliffordGate.Z])).flatten
        ∧ r = IRB.interleaveOp CliffordGate.Z [CliffordGate.H]
            ++ [((IRB.interleaveOp CliffordGate.Z [CliffordGate.H]).prod)⁻¹] :=
  ⟨by simp, interleavedCircuit_spec [CliffordGate.H] CliffordGate.Z (by simp)⟩

/-- C5: when both variants are fitted, each decay coefficient is `exp` of
its fitted slope, each standard deviation is the slope's standard error
times the decay coefficient, the interleaved gate error is
`(1 - r_irb/r_rb) * (1 - 2^-n)`, and its standard deviation is
`sqrt((s_irb/(2 r_rb))^2 + ((r_irb s_rb)/(2 r_rb^2))^2)`. -/
theorem analyzeIRB_formulas (expF sqrtF : Rat → Rat) (numQubits : Nat)
    (rbModel irbModel : IRB.RegressionModel) :
    (IRB.analyzeIRB expF sqrtF numQubits rbModel irbModel).rbDecayCoefficient
        = expF rbModel.slope
    ∧ (IRB.analyzeIRB expF sqrtF numQubits rbModel irbModel).rbDecayCoefficientStd
        = rbModel.stderr
          * (IRB.analyzeIRB expF sqrtF numQubits rbModel irbModel).rbDecayCoefficient
    ∧ (IRB.analyzeIRB expF sqrtF numQubits rbModel irbModel).irbDecayCoefficient
        = expF irbModel.slope
    ∧ (IRB.analyzeIRB expF sqrtF numQubits rbModel irbModel).irbDecayCoefficientStd
        = irbModel.stderr
          * (IRB.analyzeIRB expF sqrtF numQubits rbModel irbModel).irbDecayCoefficient
    ∧ (IRB.analyzeIRB expF sqrtF numQubits rbModel irbModel).averageInterleavedGateError
        = (1 - (IRB.analyzeIRB expF sqrtF numQubits rbModel irbModel).irbDecayCoefficient
            / (IRB.analyzeIRB expF sqrtF numQubits rbModel irbModel).rbDecayCoefficient)
          * (1 - (2 : Rat) ^ (-(numQubits : Int)))
    ∧ (IRB.analyzeIRB expF sqrtF numQubits rbModel irbModel).averageInterleavedGateErrorStd
        = sqrtF
            (((IRB.analyzeIRB expF sqrtF numQubits rbModel irbModel).irbDecayCoefficientStd
                / (2 * (IRB.analyzeIRB expF sqrtF numQubits rbModel irbModel).rbDecayCoefficient))
                ^ 2
              + (((IRB.analyzeIRB expF sqrtF numQubits rbModel irbModel).irbDecayCoefficient
                  * (IRB.analyzeIRB expF sqrtF numQubits rbModel irbModel).rbDecayCoefficientStd)
                / (2 * (IRB.analyzeIRB expF sqrtF numQubits rbModel
                    irbModel).rbDecayCoefficient ^ 2)) ^ 2) :=
  ⟨rfl, rfl, rfl, rfl, rfl, rfl⟩

theorem npLog_not_isNaN (x : Rat) : (!(IRB.npLog x).isNaN) = decide (0 ≤ x) := by
  unfold IRB.npLog
  split_ifs with h1 h2
  · have h := not_le.mpr h1
    simp [IRB.LogVal.isNaN, h]
  · subst h2
    simp [IRB.LogVal.isNaN]
  · have h := not_lt.mp h1
    simp [IRB.LogVal.isNaN, h]

theorem regressionRows_eq (raw : List RawRow) (v : Variant) :
    IRB.regressionRows raw v
      = raw.filter
          (fun r => decide (0 ≤ IRB.survivalProb r.p0) && decide (r.experiment = v)) := by
  unfold IRB.regressionRows IRB.dropNaRows
  rw [List.filter_filter]
  exact List.filter_congr (fun r _ => by rw [npLog_not_isNaN, Bool.and_comm])

/-- C1: evaluation at the failing input of the insufficient-data claim — a
data set with exactly one usable RB row (positive survival probability).
The pipeline keeps the row, hands a single point to the unguarded
`linregress` call, and gets the silent NaN fit: no distinct
"insufficient data" / "cannot fit" condition is raised. -/
theorem singleUsableRow_silent_nanFit :
    IRB.regressionRows [⟨1, 9 / 10, .RB⟩] .RB = [⟨1, 9 / 10, .RB⟩]
      ∧ 0 < IRB.survivalProb (9 / 10)
      ∧ IRB.analyzeRegression [⟨1, 9 / 10, .RB⟩] .RB = .nanFit := by
  have hrows : IRB.regressionRows [⟨1, 9 / 10, .RB⟩] .RB = [⟨1, 9 / 10, .RB⟩] := by
    rw [regressionRows_eq]
    norm_num [IRB.survivalProb]
  refine ⟨hrows, by norm_num [IRB.survivalProb], ?_⟩
  simp only [IRB.analyzeRegression, IRB.regressionPoints, hrows]
  simp [IRB.linregress]

/-- C2 counterexample: a row with survival probability exactly 0 (ground
state probability 1/2) is not dropped — `np.log(0)` is -inf, not NaN, so
`dropna` keeps the row and it appears in the fitted regression input. -/
theorem survivalZeroRow_reaches_regression :
    IRB.survivalProb (1 / 2) = 0
      ∧ IRB.regressionRows [⟨1, 1 / 2, .RB⟩] .RB = [⟨1, 1 / 2, .RB⟩]
      ∧ IRB.regressionPoints [⟨1, 1 / 2, .RB⟩] .RB = [(1, .negInf)] := by
  have h0 : IRB.survivalProb (1 / 2) = 0 := by norm_num [IRB.survivalProb]
  have hrows : IRB.regressionRows [⟨1, 1 / 2, .RB⟩] .RB = [⟨1, 1 / 2, .RB⟩] := by
    rw [regressionRows_eq]
    norm_num [IRB.survivalProb]
  refine ⟨h0, hrows, ?_⟩
  simp only [IRB.regressionPoints, hrows, List.map_cons, List.map_nil]
  rw [h0]
  norm_num [IRB.npLog]

/-- C2 amended: for every input data set and both variants, the rows that
reach the regression are exactly the rows of that variant with survival
probability ≥ 0: rows with strictly negative survival probability (NaN log)
are dropped, while rows with survival probability exactly 0 are retained
and appear in the regression input with a log value of -inf. -/
theorem regressionRows_filter (raw : List RawRow) (v : Variant) :
    IRB.regressionRows raw v
      = raw.filter
          (fun r => decide (0 ≤ IRB.survivalProb r.p0) && decide (r.experiment = v)) :=
  regressionRows_eq raw v
